import Mathlib

set_option linter.unusedSectionVars false

/-!
Verification of the geoblock bounded LRU cache (`lrucache/lru.go`) and its
debounced persistence controller (`cachePersistence.go`).

The Go code is shallowly embedded:

* the doubly linked `container/list` of `*cacheEntry` nodes becomes a
  `List (Elem K V)` whose head is the front (most recently used); each node
  carries a numeric `id` standing for its pointer identity, so that the
  `items` map (key → `*list.Element`) can be embedded as an association
  list from keys to ids;
* Go `int` is embedded as `Int`; Go maps become association lists whose
  operations (`mapGet`/`mapSet`/`mapDel`) mirror lookup, assignment and
  `delete`;
* the fallible gob decode step of `Import` is embedded by handing `Import`
  an `Option (onDisk K V)`: `none` stands for a payload the gob decoder
  rejects, `some data` for a payload that decodes to the record `data`
  (gob round-trips the fixed `onDisk` shape faithfully, so payloads are
  modelled at the record level);
* the persistence controller's dirty flag, capacity-1 notification channel
  and flush procedure become an explicit state machine whose fallible I/O
  steps are driven by a `FlushEnv` of step outcomes.
-/

namespace Geoblock

variable {K V : Type} [DecidableEq K] [DecidableEq V]

/-! ### Association-list embedding of the Go map `items` -/

/-- Go map lookup `e, ok := m[k]`: the binding for `k`, if any. -/
def mapGet : List (K × Nat) → K → Option Nat
  | [], _ => none
  | p :: rest, k => if p.1 = k then some p.2 else mapGet rest k

/-- Go `delete(m, k)`: removes the binding for `k` (our construction keeps
keys unique, so at most one binding exists). -/
def mapDel : List (K × Nat) → K → List (K × Nat)
  | [], _ => []
  | p :: rest, k => if p.1 = k then mapDel rest k else p :: mapDel rest k

/-- Go map assignment `m[k] = i`: replaces any existing binding for `k`. -/
def mapSet (m : List (K × Nat)) (k : K) (i : Nat) : List (K × Nat) :=
  (k, i) :: mapDel m k

/-! ### The recency list: `container/list` of `*cacheEntry` nodes -/

/-- One `cacheEntry` node of the eviction list.  `id` stands for the node's
pointer identity (`*list.Element`), so the `items` map can reference it. -/
structure Elem (K V : Type) where
  id : Nat
  key : K
  value : V
deriving DecidableEq

/-- Dereference a node id: the node of the list carrying this identity. -/
def findById : List (Elem K V) → Nat → Option (Elem K V)
  | [], _ => none
  | e :: rest, i => if e.id = i then some e else findById rest i

/-- `list.Remove` of the node with identity `i` (node ids are unique in
every state this API constructs, so the first match is the node). -/
def removeById : List (Elem K V) → Nat → List (Elem K V)
  | [], _ => []
  | e :: rest, i => if e.id = i then rest else e :: removeById rest i

/-- In-place update `e.Value.(*cacheEntry).value = v` of the node with
identity `i`. -/
def setValueById : List (Elem K V) → Nat → V → List (Elem K V)
  | [], _, _ => []
  | e :: rest, i, v =>
    if e.id = i then { e with value := v } :: rest else e :: setValueById rest i v

/-- `evictList.MoveToFront(e)` for the node with identity `i`: unlink the
node and reinsert it at the front; a no-op if no live node has identity `i`
(which, as for `container/list`, never happens for pointers held in
`items`). -/
def moveToFront (l : List (Elem K V)) (i : Nat) : List (Elem K V) :=
  match findById l i with
  | none => l
  | some e => e :: removeById l i

/-- The graph `key ↦ id` a node list induces; the shape the `items` map
mirrors in every state this API constructs. -/
def graphOf (l : List (Elem K V)) : List (K × Nat) :=
  l.map fun e => (e.key, e.id)

/-! ### The cache (`LRUCache` of `lrucache/lru.go`) -/

/-- The `LRUCache` struct: configured capacity `size` (Go `int`), the
eviction list (head = front = most recently used), the `items` map from
key to node identity, and the next fresh node identity (a heap allocator
counter; Go pointers are simply distinct). -/
structure LRUCache (K V : Type) where
  size : Int
  evictList : List (Elem K V)
  items : List (K × Nat)
  nextId : Nat
deriving DecidableEq

/-- `NewLRUCache`: rejects `size <= 1`, otherwise an empty cache. -/
def NewLRUCache (size : Int) : Option (LRUCache K V) :=
  if size ≤ 1 then none
  else some { size := size, evictList := [], items := [], nextId := 0 }

namespace LRUCache

/-- `removeOldest`: remove the back node, and its key's map binding. -/
def removeOldest (c : LRUCache K V) : LRUCache K V :=
  match c.evictList.getLast? with
  | none => c
  | some e =>
    { c with
      evictList := removeById c.evictList e.id,
      items := mapDel c.items e.key }

/-- `Add(key, value) -> evicted`.  Existing key: move its node to the
front and overwrite the value, returning `false`.  New key: push a fresh
node at the front, record it in `items`, and evict the back node exactly
when the length now exceeds `size`. -/
def Add (c : LRUCache K V) (k : K) (v : V) : LRUCache K V × Bool :=
  match mapGet c.items k with
  | some i =>
    ({ c with evictList := setValueById (moveToFront c.evictList i) i v }, false)
  | none =>
    let c' : LRUCache K V :=
      { c with
        evictList := ⟨c.nextId, k, v⟩ :: c.evictList,
        items := mapSet c.items k c.nextId,
        nextId := c.nextId + 1 }
    if (c'.evictList.length : Int) > c'.size then (c'.removeOldest, true)
    else (c', false)

/-- `Get(key)`: on a hit, move the node to the front and return its value;
on a miss, `(nil, false)` with no change.  (The code's `nil` check on the
entry pointer can never fire: entries are always allocated non-nil.) -/
def Get (c : LRUCache K V) (k : K) : LRUCache K V × Option V × Bool :=
  match mapGet c.items k with
  | none => (c, none, false)
  | some i =>
    match findById c.evictList i with
    | none => (c, none, false)
    | some e => ({ c with evictList := moveToFront c.evictList i }, some e.value, true)

/-- `Contains(key)`: membership via the map only; no recency change. -/
def Contains (c : LRUCache K V) (k : K) : Bool :=
  (mapGet c.items k).isSome

/-- `Remove(key)`: `removeElement` on the node the map holds for `k`
(whose key is `k` in every state this API constructs). -/
def Remove (c : LRUCache K V) (k : K) : LRUCache K V × Bool :=
  match mapGet c.items k with
  | none => (c, false)
  | some i =>
    ({ c with
        evictList := removeById c.evictList i,
        items := mapDel c.items k }, true)

/-- `Keys()`: keys front to back (most recently used first). -/
def Keys (c : LRUCache K V) : List K :=
  c.evictList.map (·.key)

/-- `Length()`: the eviction list's length. -/
def Length (c : LRUCache K V) : Nat :=
  c.evictList.length

/-- `Purge()`: drop every map binding and reinitialise the list. -/
def Purge (c : LRUCache K V) : LRUCache K V :=
  { c with evictList := [], items := [] }

/-- The `(key, value)` pairs front to back; the projection both `Keys` and
`Snapshot` read. -/
def kvList (c : LRUCache K V) : List (K × V) :=
  c.evictList.map (fun e => (e.key, e.value))

/-- The value stored for `k`, read off the snapshot projection (the cache
holds at most one node per key in every state this API constructs). -/
def valueOf (c : LRUCache K V) (k : K) : Option V :=
  ((c.kvList.find? (fun p => p.1 = k)).map (·.2))

/-- `Snapshot()`: the configured size plus a detached copy of the entries
in most-recent-first order. -/
def Snapshot (c : LRUCache K V) : Int × List (K × V) :=
  (c.size, c.kvList)

end LRUCache

/-! ### The on-disk shape and `Export`/`Import` -/

/-- The gob-encoded record `onDisk`: declared capacity plus entries in
most-recent-first order. -/
structure onDisk (K V : Type) where
  Size : Int
  Entries : List (K × V)
deriving DecidableEq

/-- `Import`'s two failure modes: the gob decoder rejecting the payload,
and the `data.Size <= 1` validation error. -/
inductive ImportError where
  | decodeFailed
  | invalidSize
deriving DecidableEq

namespace LRUCache

/-- `Export(w)`: encode `Snapshot()` as an `onDisk` record. -/
def Export (c : LRUCache K V) : onDisk K V :=
  { Size := (c.Snapshot).1, Entries := (c.Snapshot).2 }

/-- `Export` threaded through the receiver state: the Go method only reads
(a `Snapshot` under `RLock`), so the receiver comes back as it went in. -/
def ExportSt (c : LRUCache K V) : LRUCache K V × onDisk K V :=
  (c, c.Export)

/-- The rebuild loop of `Import`: `PushBack` each decoded entry as a fresh
node (MRU first, so the front stays MRU), ids allocated in order. -/
def withIds (n : Nat) : List (K × V) → List (Elem K V)
  | [] => []
  | p :: rest => ⟨n, p.1, p.2⟩ :: withIds (n + 1) rest

/-- The `items` map the rebuild loop produces: `items[p.K] = el` for each
pushed node, later bindings overwriting earlier ones. -/
def rebuildItems (es : List (Elem K V)) : List (K × Nat) :=
  es.foldl (fun m e => mapSet m e.key e.id) []

/-- The truncation loop `for evictList.Len() > size { removeOldest() }`.
The fuel is the list length: `Import` only runs this with `size ≥ 2`, and
then each iteration drops exactly one node, so the loop ends within
`length` steps (matching the Go loop's iteration count). -/
def shrinkAux : Nat → LRUCache K V → LRUCache K V
  | 0, c => c
  | n + 1, c =>
    if (c.evictList.length : Int) > c.size then shrinkAux n c.removeOldest else c

def shrink (c : LRUCache K V) : LRUCache K V :=
  shrinkAux c.evictList.length c

/-- `Import(r)`: decode (`none` = decoder error), validate `Size > 1`,
then atomically replace size, items and list, and defensively truncate
from the back.  On failure the receiver is untouched. -/
def Import (c : LRUCache K V) (r : Option (onDisk K V)) :
    LRUCache K V × Option ImportError :=
  match r with
  | none => (c, some ImportError.decodeFailed)
  | some data =>
    if data.Size ≤ 1 then (c, some ImportError.invalidSize)
    else
      let es := withIds c.nextId data.Entries
      (shrink
        { size := data.Size,
          evictList := es,
          items := rebuildItems es,
          nextId := c.nextId + data.Entries.length }, none)

end LRUCache

/-! ### Representation invariants -/

/-- The spec's stated invariant: the list and the index have equal
lengths, both within capacity, and every index binding points at a live
node carrying that key. -/
def Invariant (c : LRUCache K V) : Prop :=
  c.evictList.length = c.items.length ∧
  (c.evictList.length : Int) ≤ c.size ∧
  ∀ p ∈ c.items, ∃ e ∈ c.evictList, e.id = p.2 ∧ e.key = p.1

instance (c : LRUCache K V) : Decidable (Invariant c) := by
  unfold Invariant; infer_instance

/-- The full representation invariant of the Go data structure: list keys
and node identities are duplicate-free, the `items` map is exactly the
graph `key ↦ node id` of the list, ids are below the allocation counter,
the list is within capacity, and the capacity passed construction-time
validation.  Every cache produced by `NewLRUCache` and maintained through
the API satisfies it. -/
def WF (c : LRUCache K V) : Prop :=
  (c.evictList.map (·.key)).Nodup ∧
  (c.evictList.map (·.id)).Nodup ∧
  c.items.Perm (graphOf c.evictList) ∧
  (∀ e ∈ c.evictList, e.id < c.nextId) ∧
  (c.evictList.length : Int) ≤ c.size ∧
  1 < c.size

instance (c : LRUCache K V) : Decidable (WF c) := by
  unfold WF; infer_instance

/-! ### The persistence controller (`cachePersistence.go`) -/

/-- Outcomes of the fallible steps of one flush: snapshot encoding, temp
file creation, write, sync, close, and the atomic rename. -/
structure FlushEnv where
  exportOk : Bool
  createOk : Bool
  writeOk : Bool
  syncOk : Bool
  closeOk : Bool
  renameOk : Bool
deriving DecidableEq

/-- The `CachePersist` state: the dirty flag (`uint32`, 0 clean / 1
dirty), the capacity-1 nudge channel `ch` (`true` = one signal pending),
whether `quit` has been closed, the last successful flush instant and the
two intervals (all times in nanoseconds, as Go's `int64`). -/
structure CachePersist where
  ipDirty : Nat
  ch : Bool
  quitClosed : Bool
  lastFlush : Int
  minInterval : Int
  maxInterval : Int
deriving DecidableEq

/-- The world the flush touches: whether the temp file currently exists,
and how many snapshot writes (successful renames) have completed. -/
structure World where
  tempExists : Bool
  flushCount : Nat
deriving DecidableEq

/-- `MarkDirty` on a possibly-nil receiver: nil returns immediately;
otherwise store 1 into the dirty flag and try a non-blocking send on the
capacity-1 channel (dropped when a signal is already pending). -/
def MarkDirty : Option CachePersist → Option CachePersist
  | none => none
  | some p =>
    let p := { p with ipDirty := 1 }
    if p.ch then some p else some { p with ch := true }

/-- `N` consecutive `MarkDirty` calls. -/
def markDirtyN : Nat → Option CachePersist → Option CachePersist
  | 0, s => s
  | n + 1, s => markDirtyN n (MarkDirty s)

/-- `Stop`: nil returns immediately; otherwise close the quit channel. -/
def Stop : Option CachePersist → Option CachePersist
  | none => none
  | some p => some { p with quitClosed := true }

/-- `flushIfDirty` at instant `now`: return unless the receiver is non-nil
and dirty; then export, create a temp file, write, sync, close, rename —
aborting at the first failed step, removing the temp file when one exists,
and only after a successful rename clearing the dirty flag and recording
the flush time. -/
def flushIfDirty (env : FlushEnv) (now : Int) :
    Option CachePersist → World → Option CachePersist × World
  | none, w => (none, w)
  | some p, w =>
    if p.ipDirty = 0 then (some p, w)
    else if env.exportOk = false then (some p, w)
    else if env.createOk = false then (some p, w)
    else
      let w := { w with tempExists := true }
      if env.writeOk = false then (some p, { w with tempExists := false })
      else if env.syncOk = false then (some p, { w with tempExists := false })
      else if env.closeOk = false then (some p, { w with tempExists := false })
      else if env.renameOk = false then (some p, { w with tempExists := false })
      else
        (some { p with ipDirty := 0, lastFlush := now },
         { tempExists := false, flushCount := w.flushCount + 1 })

/-- One `case <-p.ch:` iteration of `Run`'s select loop, woken at instant
`wakeNow` and flushing at instant `flushNow`.  A nil receiver makes `Run`
return immediately.  Otherwise: receive and drain the channel, compute the
time since the last flush; if the maximum interval is already exceeded,
flush at once; otherwise wait out the rest of the debounce window
(`interrupted` tells whether shutdown fired during the wait, in which case
the loop flushes and returns).  The returned `Bool` is whether the loop
exits. -/
def runOnNudge (env : FlushEnv) (wakeNow flushNow : Int) (interrupted : Bool) :
    Option CachePersist → World → Option CachePersist × World × Bool
  | none, w => (none, w, true)
  | some p, w =>
    if p.ch = false then (some p, w, false)
    else
      let p := { p with ch := false }
      let since := wakeNow - p.lastFlush
      let untilMax := p.maxInterval - since
      if untilMax ≤ 0 then
        let r := flushIfDirty env flushNow (some p) w
        (r.1, r.2, false)
      else if interrupted then
        let r := flushIfDirty env flushNow (some p) w
        (r.1, r.2, true)
      else
        let r := flushIfDirty env flushNow (some p) w
        (r.1, r.2, false)

/-! ### Concrete states used as test vectors -/

/-- A capacity-3 cache holding keys 1 (front) and 2, as the API would have
built it. -/
def lruW : LRUCache Nat Nat :=
  { size := 3, evictList := [⟨5, 1, 10⟩, ⟨4, 2, 20⟩],
    items := [(1, 5), (2, 4)], nextId := 6 }

/-- A freshly constructed capacity-2 cache. -/
def lruEmpty2 : LRUCache Nat Nat :=
  { size := 2, evictList := [], items := [], nextId := 0 }

/-- A freshly constructed capacity-3 cache. -/
def lruEmpty3 : LRUCache Nat Nat :=
  { size := 3, evictList := [], items := [], nextId := 0 }

/-- A capacity-4 cache already holding key 0. -/
def lruPre4 : LRUCache Nat Nat :=
  { size := 4, evictList := [⟨0, 0, 99⟩], items := [(0, 0)], nextId := 1 }

/-- The flush environment in which every I/O step succeeds. -/
def envOk : FlushEnv :=
  { exportOk := true, createOk := true, writeOk := true,
    syncOk := true, closeOk := true, renameOk := true }

/-- A clean, idle controller state (intervals 10 and 30 nanoseconds). -/
def cpIdle : CachePersist :=
  { ipDirty := 0, ch := false, quitClosed := false,
    lastFlush := 0, minInterval := 10, maxInterval := 30 }

/-- A dirty controller state. -/
def cpDirty : CachePersist :=
  { ipDirty := 1, ch := false, quitClosed := false,
    lastFlush := 0, minInterval := 10, maxInterval := 30 }

/-- A world with no temp file and no completed writes. -/
def wldW : World :=
  { tempExists := false, flushCount := 0 }

/-! ### Lemmas on the association-list map -/

theorem mapGet_eq_none_iff {m : List (K × Nat)} {k : K} :
    mapGet m k = none ↔ ∀ p ∈ m, p.1 ≠ k := by
  induction m with
  | nil => simp [mapGet]
  | cons q rest ih =>
    by_cases hq : q.1 = k
    · simp [mapGet, hq]
    · simp [mapGet, hq, ih]

theorem mapGet_eq_some_mem {m : List (K × Nat)} {k : K} {i : Nat}
    (h : mapGet m k = some i) : (k, i) ∈ m := by
  induction m with
  | nil => simp [mapGet] at h
  | cons q rest ih =>
    by_cases hq : q.1 = k
    · simp [mapGet, hq] at h
      simp [← hq, ← h]
    · simp [mapGet, hq] at h
      exact List.mem_cons_of_mem _ (ih h)

theorem mapDel_of_not_mem {m : List (K × Nat)} {k : K}
    (h : ∀ p ∈ m, p.1 ≠ k) : mapDel m k = m := by
  induction m with
  | nil => rfl
  | cons q rest ih =>
    have hq : q.1 ≠ k := h q (by simp)
    simp [mapDel, hq]
    exact ih fun p hp => h p (List.mem_cons_of_mem _ hp)

theorem mapDel_append {a b : List (K × Nat)} {k : K} :
    mapDel (a ++ b) k = mapDel a k ++ mapDel b k := by
  induction a with
  | nil => rfl
  | cons q rest ih =>
    by_cases hq : q.1 = k <;> simp [mapDel, hq, ih]

theorem mapDel_eq_filter {m : List (K × Nat)} {k : K} :
    mapDel m k = m.filter (fun p => p.1 ≠ k) := by
  induction m with
  | nil => rfl
  | cons q rest ih =>
    by_cases hq : q.1 = k <;> simp [mapDel, hq, ih, List.filter_cons]

theorem mapDel_perm {m m' : List (K × Nat)} {k : K} (h : m.Perm m') :
    (mapDel m k).Perm (mapDel m' k) := by
  rw [mapDel_eq_filter, mapDel_eq_filter]
  exact h.filter _

/-! ### Lemmas on node lists -/

@[simp] theorem graphOf_nil : graphOf ([] : List (Elem K V)) = [] := rfl

@[simp] theorem graphOf_cons {e : Elem K V} {l : List (Elem K V)} :
    graphOf (e :: l) = (e.key, e.id) :: graphOf l := rfl

@[simp] theorem graphOf_append {a b : List (Elem K V)} :
    graphOf (a ++ b) = graphOf a ++ graphOf b := by
  simp [graphOf]

theorem removeById_append_cons {s t : List (Elem K V)} {e : Elem K V}
    (hs : ∀ x ∈ s, x.id ≠ e.id) :
    removeById (s ++ e :: t) e.id = s ++ t := by
  induction s with
  | nil => simp [removeById]
  | cons x rest ih =>
    have hx : x.id ≠ e.id := hs x (by simp)
    simp only [List.cons_append, removeById, if_neg hx]
    show x :: removeById (rest ++ e :: t) e.id = x :: (rest ++ t)
    rw [ih fun y hy => hs y (List.mem_cons_of_mem _ hy)]

theorem findById_append_cons {s t : List (Elem K V)} {e : Elem K V}
    (hs : ∀ x ∈ s, x.id ≠ e.id) :
    findById (s ++ e :: t) e.id = some e := by
  induction s with
  | nil => simp [findById]
  | cons x rest ih =>
    have hx : x.id ≠ e.id := hs x (by simp)
    simp only [List.cons_append, findById, if_neg hx]
    show findById (rest ++ e :: t) e.id = some e
    exact ih fun y hy => hs y (List.mem_cons_of_mem _ hy)

theorem setValueById_cons_head {t : List (Elem K V)} {e : Elem K V} {v : V} :
    setValueById (e :: t) e.id v = { e with value := v } :: t := by
  simp [setValueById]

/-- Splitting off the node a duplicate-free id column singles out. -/
theorem ids_split {s t : List (Elem K V)} {e : Elem K V}
    (h : ((s ++ e :: t).map (·.id)).Nodup) :
    (∀ x ∈ s, x.id ≠ e.id) ∧ (∀ x ∈ t, x.id ≠ e.id) := by
  rw [List.map_append, List.map_cons, List.nodup_middle, List.nodup_cons] at h
  constructor
  · intro x hx heq
    exact h.1 (by rw [← heq]; exact List.mem_append_left _ (List.mem_map_of_mem _ hx))
  · intro x hx heq
    exact h.1 (by rw [← heq]; exact List.mem_append_right _ (List.mem_map_of_mem _ hx))

theorem keys_split {s t : List (Elem K V)} {e : Elem K V}
    (h : ((s ++ e :: t).map (·.key)).Nodup) :
    (∀ x ∈ s, x.key ≠ e.key) ∧ (∀ x ∈ t, x.key ≠ e.key) := by
  rw [List.map_append, List.map_cons, List.nodup_middle, List.nodup_cons] at h
  constructor
  · intro x hx heq
    exact h.1 (by rw [← heq]; exact List.mem_append_left _ (List.mem_map_of_mem _ hx))
  · intro x hx heq
    exact h.1 (by rw [← heq]; exact List.mem_append_right _ (List.mem_map_of_mem _ hx))

/-- Erasing the key of the singled-out node from the key column. -/
theorem erase_key_middle {s t : List (Elem K V)} {e : Elem K V}
    (h : ((s ++ e :: t).map (·.key)).Nodup) :
    (((s ++ e :: t).map (·.key)).erase e.key) = (s ++ t).map (·.key) := by
  have hs := (keys_split h).1
  have hnot : e.key ∉ s.map (·.key) := by
    intro hmem
    rcases List.mem_map.mp hmem with ⟨x, hx, hxk⟩
    exact hs x hx hxk
  rw [List.map_append, List.map_cons, List.erase_append_right _ hnot,
    List.erase_cons_head, ← List.map_append]

/-- Deleting the singled-out node's key from the graph. -/
theorem mapDel_graph_middle {s t : List (Elem K V)} {e : Elem K V}
    (h : ((s ++ e :: t).map (·.key)).Nodup) :
    mapDel (graphOf (s ++ e :: t)) e.key = graphOf (s ++ t) := by
  have hs := (keys_split h).1
  have ht := (keys_split h).2
  rw [graphOf_append, graphOf_cons, mapDel_append]
  rw [mapDel_of_not_mem (m := graphOf s)
    (by
      intro p hp
      rcases List.mem_map.mp hp with ⟨x, hx, hxp⟩
      subst hxp
      exact hs x hx)]
  have : mapDel ((e.key, e.id) :: graphOf t) e.key = mapDel (graphOf t) e.key := by
    simp [mapDel]
  rw [graphOf_append, this, mapDel_of_not_mem (m := graphOf t)
    (by
      intro p hp
      rcases List.mem_map.mp hp with ⟨x, hx, hxp⟩
      subst hxp
      exact ht x hx)]

/-! ### Lookup facts under the representation invariant -/

theorem wf_lookup_none {c : LRUCache K V} {k : K} (hwf : WF c) :
    mapGet c.items k = none ↔ k ∉ c.Keys := by
  obtain ⟨-, -, hperm, -⟩ := hwf
  rw [mapGet_eq_none_iff]
  constructor
  · intro h hk
    rcases List.mem_map.mp hk with ⟨e, he, hek⟩
    exact h (e.key, e.id) (hperm.mem_iff.mpr (List.mem_map_of_mem _ he)) hek
  · intro h p hp hpk
    rcases List.mem_map.mp (hperm.mem_iff.mp hp) with ⟨e, he, hep⟩
    refine h ?_
    rw [← hpk, ← hep]
    exact List.mem_map_of_mem _ he

theorem wf_lookup_some {c : LRUCache K V} {k : K} {i : Nat} (hwf : WF c)
    (h : mapGet c.items k = some i) :
    ∃ s e t, c.evictList = s ++ e :: t ∧ e.key = k ∧ e.id = i := by
  obtain ⟨-, -, hperm, -⟩ := hwf
  have hmem := hperm.mem_iff.mp (mapGet_eq_some_mem h)
  rcases List.mem_map.mp hmem with ⟨e, he, hep⟩
  rcases List.append_of_mem he with ⟨s, t, hst⟩
  exact ⟨s, e, t, hst, congrArg Prod.fst hep, congrArg Prod.snd hep⟩

theorem wf_mem_keys {c : LRUCache K V} {k : K} (hwf : WF c) (hk : k ∈ c.Keys) :
    ∃ i, mapGet c.items k = some i := by
  cases hm : mapGet c.items k with
  | none => exact absurd hk ((wf_lookup_none hwf).mp hm)
  | some i => exact ⟨i, rfl⟩

/-! ### Promotion: `MoveToFront` on the singled-out node -/

theorem moveToFront_middle {s t : List (Elem K V)} {e : Elem K V}
    (hids : (((s ++ e :: t)).map (·.id)).Nodup) :
    moveToFront (s ++ e :: t) e.id = e :: (s ++ t) := by
  have hs := (ids_split hids).1
  rw [moveToFront, findById_append_cons hs, removeById_append_cons hs]

theorem perm_graph_middle {s t : List (Elem K V)} {e : Elem K V} :
    ((e.key, e.id) :: graphOf (s ++ t)).Perm (graphOf (s ++ e :: t)) := by
  rw [graphOf_append, graphOf_append, graphOf_cons]
  exact List.perm_middle.symm

/-! ### `Add` on an existing key -/

theorem add_mem_spec {c : LRUCache K V} {k : K} {i : Nat} {v : V} (hwf : WF c)
    (h : mapGet c.items k = some i) :
    ∃ s e t, c.evictList = s ++ e :: t ∧ e.key = k ∧ e.id = i ∧
      c.Add k v = ({ c with evictList := ⟨i, k, v⟩ :: (s ++ t) }, false) := by
  rcases wf_lookup_some hwf h with ⟨s, e, t, hst, hek, hei⟩
  refine ⟨s, e, t, hst, hek, hei, ?_⟩
  have hids : (c.evictList.map (·.id)).Nodup := hwf.2.1
  rw [hst] at hids
  simp only [LRUCache.Add, h]
  rw [hst, ← hei, moveToFront_middle hids, ← hek, setValueById_cons_head]

theorem add_mem_props {c : LRUCache K V} {k : K} {v : V} (hwf : WF c)
    (hk : k ∈ c.Keys) :
    (c.Add k v).2 = false ∧
    (c.Add k v).1.Keys = k :: c.Keys.erase k ∧
    (c.Add k v).1.Length = c.Length ∧
    (c.Add k v).1.valueOf k = some v ∧
    (c.Add k v).1.size = c.size ∧
    WF (c.Add k v).1 := by
  rcases wf_mem_keys hwf hk with ⟨i, h⟩
  rcases add_mem_spec (v := v) hwf h with ⟨s, e, t, hst, hek, hei, hadd⟩
  obtain ⟨hkeys, hids, hperm, hnext, hlen, hsz⟩ := hwf
  rw [hadd]
  have hkeysl : (c.evictList.map (·.key)).Nodup := hkeys
  rw [hst] at hkeysl
  have hkeq : (c.Keys).erase k = (s ++ t).map (·.key) := by
    rw [LRUCache.Keys, hst, ← hek]
    exact erase_key_middle hkeysl
  refine ⟨rfl, ?_, ?_, ?_, rfl, ?_⟩
  · rw [LRUCache.Keys]
    simp only [List.map_cons]
    rw [hkeq]
  · simp [LRUCache.Length, hst]
    try omega
  · simp [LRUCache.valueOf, LRUCache.kvList]
  · have hidsl := hids
    rw [hst] at hidsl
    refine ⟨?_, ?_, ?_, ?_, ?_, hsz⟩
    · show (k :: (s ++ t).map (·.key)).Nodup
      rw [← hkeq]
      have : c.Keys.Perm (k :: c.Keys.erase k) := by
        refine List.perm_cons_erase ?_
        exact hk
      exact (this.nodup_iff).mp hkeys
    · show (i :: (s ++ t).map (·.id)).Nodup
      have hpm : (c.evictList.map (·.id)).Perm (i :: (s ++ t).map (·.id)) := by
        rw [hst, ← hei]
        simp only [List.map_append, List.map_cons]
        exact List.perm_middle
      exact hpm.nodup_iff.mp hids
    · show c.items.Perm (graphOf (⟨i, k, v⟩ :: (s ++ t)))
      rw [graphOf_cons]
      refine hperm.trans ?_
      rw [hst]
      refine ((perm_graph_middle (s := s) (t := t) (e := e)).symm.trans ?_)
      rw [hek, hei]
    · intro x hx
      rcases List.mem_cons.mp hx with hx | hx
      · subst hx
        show i < c.nextId
        rw [← hei]
        exact hnext e (by rw [hst]; exact List.mem_append_right _ (List.mem_cons_self _ _))
      · refine hnext x ?_
        rw [hst]
        rcases List.mem_append.mp hx with hx | hx
        · exact List.mem_append_left _ hx
        · exact List.mem_append_right _ (List.mem_cons_of_mem _ hx)
    · show ((⟨i, k, v⟩ :: (s ++ t) : List (Elem K V)).length : Int) ≤ c.size
      have : (⟨i, k, v⟩ :: (s ++ t) : List (Elem K V)).length = c.evictList.length := by
        rw [hst]
        simp
        omega
      rw [this]
      exact hlen

/-! ### `Add` on a new key -/

theorem add_new_noevict {c : LRUCache K V} {k : K} {v : V}
    (h : mapGet c.items k = none)
    (hle : (c.evictList.length + 1 : Int) ≤ c.size) :
    c.Add k v = ({ size := c.size,
                   evictList := ⟨c.nextId, k, v⟩ :: c.evictList,
                   items := mapSet c.items k c.nextId,
                   nextId := c.nextId + 1 }, false) := by
  simp only [LRUCache.Add, h]
  rw [if_neg (by simp only [List.length_cons]; push_cast; omega)]

theorem add_new_evict {c : LRUCache K V} {k : K} {v : V} (hwf : WF c)
    (h : mapGet c.items k = none)
    (hgt : (c.evictList.length + 1 : Int) > c.size) :
    ∃ hne : c.evictList ≠ [],
      c.Add k v = ({ size := c.size,
                     evictList := ⟨c.nextId, k, v⟩ :: c.evictList.dropLast,
                     items := (k, c.nextId) ::
                       mapDel c.items (c.evictList.getLast hne).key,
                     nextId := c.nextId + 1 }, true) := by
  obtain ⟨hkeys, hids, hperm, hnext, hlen, hsz⟩ := hwf
  have hne : c.evictList ≠ [] := by
    intro hemp
    have h0 : c.evictList.length = 0 := by rw [hemp]; rfl
    rw [h0] at hgt
    push_cast at hgt
    omega
  refine ⟨hne, ?_⟩
  set b := c.evictList.getLast hne with hb
  have hdec : c.evictList = c.evictList.dropLast ++ b :: [] :=
    (List.dropLast_append_getLast hne).symm
  simp only [LRUCache.Add, h]
  rw [if_pos (by simp only [List.length_cons]; push_cast; omega)]
  have hbl : b ∈ c.evictList := List.getLast_mem hne
  have hglast : (⟨c.nextId, k, v⟩ :: c.evictList).getLast? = some b := by
    have h1 : (⟨c.nextId, k, v⟩ :: c.evictList : List (Elem K V)) =
        (⟨c.nextId, k, v⟩ :: c.evictList.dropLast) ++ [b] := by
      rw [List.cons_append, ← hdec]
    rw [h1]
    exact List.getLast?_concat _
  simp only [LRUCache.removeOldest, hglast]
  have hids2 : ((c.evictList.dropLast ++ b :: []).map (·.id)).Nodup := by
    rw [← hdec]; exact hids
  have hsplit := (ids_split hids2).1
  have hrem : removeById (⟨c.nextId, k, v⟩ :: c.evictList) b.id =
      ⟨c.nextId, k, v⟩ :: c.evictList.dropLast := by
    have hx : ∀ x ∈ (⟨c.nextId, k, v⟩ :: c.evictList.dropLast : List (Elem K V)),
        x.id ≠ b.id := by
      intro x hx
      rcases List.mem_cons.mp hx with hx | hx
      · subst hx
        have := hnext b hbl
        show c.nextId ≠ b.id
        omega
      · exact hsplit x hx
    have h2 := removeById_append_cons (s := ⟨c.nextId, k, v⟩ :: c.evictList.dropLast)
      (t := []) (e := b) hx
    rw [List.cons_append, ← hdec] at h2
    rw [h2, List.append_nil]
  have hkb : k ≠ b.key := by
    intro hkk
    have : ∀ p ∈ c.items, p.1 ≠ k := mapGet_eq_none_iff.mp h
    exact this (b.key, b.id) (hperm.mem_iff.mpr (List.mem_map_of_mem _ hbl)) (by rw [hkk])
  have hdel : mapDel (mapSet c.items k c.nextId) b.key =
      (k, c.nextId) :: mapDel c.items b.key := by
    rw [mapSet, mapDel_of_not_mem (mapGet_eq_none_iff.mp h)]
    show mapDel ((k, c.nextId) :: c.items) b.key = _
    rw [mapDel]
    simp only [if_neg hkb]
  rw [hrem, hdel]

/-- Everything `Add` guarantees on a key not already cached. -/
theorem add_new_props {c : LRUCache K V} {k : K} {v : V} (hwf : WF c)
    (hk : k ∉ c.Keys) :
    ((c.Add k v).2 = true ↔ (c.Length + 1 : Int) > c.size) ∧
    (c.Add k v).1.Keys =
      k :: (if (c.Length + 1 : Int) > c.size then c.Keys.dropLast else c.Keys) ∧
    (c.Add k v).1.Length =
      (if (c.Length + 1 : Int) > c.size then c.Length else c.Length + 1) ∧
    (c.Add k v).1.valueOf k = some v ∧
    (c.Add k v).1.size = c.size ∧
    WF (c.Add k v).1 := by
  have h : mapGet c.items k = none := (wf_lookup_none hwf).mpr hk
  have hwf' := hwf
  obtain ⟨hkeys, hids, hperm, hnext, hlen, hsz⟩ := hwf'
  by_cases hgt : (c.evictList.length + 1 : Int) > c.size
  · rcases add_new_evict hwf h hgt with ⟨hne, hadd⟩
    set b := c.evictList.getLast hne with hb
    have hbl : b ∈ c.evictList := List.getLast_mem hne
    have hdec : c.evictList = c.evictList.dropLast ++ b :: [] :=
      (List.dropLast_append_getLast hne).symm
    have hkeys2 : ((c.evictList.dropLast ++ b :: []).map (·.key)).Nodup := by
      rw [← hdec]; exact hkeys
    have hids2 : ((c.evictList.dropLast ++ b :: []).map (·.id)).Nodup := by
      rw [← hdec]; exact hids
    have hLgt : (c.Length + 1 : Int) > c.size := by
      rw [LRUCache.Length]; exact hgt
    have hkdrop : c.Keys.dropLast = c.evictList.dropLast.map (·.key) := by
      rw [LRUCache.Keys]
      conv =>
        lhs
        rw [hdec]
      rw [List.map_append]
      simp
    rw [hadd]
    refine ⟨by simp [hLgt], ?_, ?_, ?_, rfl, ?_⟩
    · rw [if_pos hLgt]
      rw [LRUCache.Keys]
      simp only [List.map_cons]
      rw [hkdrop]
    · rw [if_pos hLgt]
      show c.evictList.dropLast.length + 1 = c.Length
      rw [LRUCache.Length]
      have : c.evictList.length = c.evictList.dropLast.length + 1 := by
        conv =>
          lhs
          rw [hdec]
        simp
      omega
    · simp [LRUCache.valueOf, LRUCache.kvList]
    · have hkeysDL : (c.evictList.dropLast.map (·.key)).Nodup := by
        rw [List.map_append] at hkeys2
        exact (List.nodup_append.mp hkeys2).1
      have hidsDL : (c.evictList.dropLast.map (·.id)).Nodup := by
        rw [List.map_append] at hids2
        exact (List.nodup_append.mp hids2).1
      refine ⟨?_, ?_, ?_, ?_, ?_, hsz⟩
      · show (k :: c.evictList.dropLast.map (·.key)).Nodup
        rw [List.nodup_cons]
        refine ⟨?_, hkeysDL⟩
        intro hmem
        refine hk ?_
        rw [LRUCache.Keys]
        have : c.evictList.dropLast.map (·.key) ⊆ c.evictList.map (·.key) :=
          List.map_subset _ (List.dropLast_subset _)
        exact this hmem
      · show (c.nextId :: c.evictList.dropLast.map (·.id)).Nodup
        rw [List.nodup_cons]
        refine ⟨?_, hidsDL⟩
        intro hmem
        rcases List.mem_map.mp hmem with ⟨x, hx, hxid⟩
        have := hnext x (List.dropLast_subset _ hx)
        omega
      · show ((k, c.nextId) :: mapDel c.items b.key).Perm
          (graphOf (⟨c.nextId, k, v⟩ :: c.evictList.dropLast))
        rw [graphOf_cons]
        refine List.Perm.cons _ ?_
        refine (mapDel_perm hperm).trans ?_
        have : mapDel (graphOf c.evictList) b.key = graphOf c.evictList.dropLast := by
          conv =>
            lhs
            rw [hdec]
          have := mapDel_graph_middle (s := c.evictList.dropLast) (t := [])
            (e := b) hkeys2
          rw [this]
          simp
        rw [this]
      · intro x hx
        show x.id < c.nextId + 1
        rcases List.mem_cons.mp hx with hx | hx
        · subst hx
          show c.nextId < c.nextId + 1
          omega
        · have := hnext x (List.dropLast_subset _ hx)
          omega
      · show ((⟨c.nextId, k, v⟩ :: c.evictList.dropLast : List (Elem K V)).length : Int) ≤ c.size
        have : c.evictList.length = c.evictList.dropLast.length + 1 := by
          conv =>
            lhs
            rw [hdec]
          simp
        simp only [List.length_cons]
        push_cast
        omega
  · have hle : (c.evictList.length + 1 : Int) ≤ c.size := by omega
    have hadd := add_new_noevict (v := v) h hle
    have hLle : ¬ (c.Length + 1 : Int) > c.size := by
      rw [LRUCache.Length]; omega
    rw [hadd]
    refine ⟨by simp [hLle], ?_, ?_, ?_, rfl, ?_⟩
    · rw [if_neg hLle]
      rw [LRUCache.Keys, LRUCache.Keys]
      simp
    · rw [if_neg hLle]
      simp [LRUCache.Length]
    · simp [LRUCache.valueOf, LRUCache.kvList]
    · refine ⟨?_, ?_, ?_, ?_, ?_, hsz⟩
      · show (k :: c.evictList.map (·.key)).Nodup
        rw [List.nodup_cons]
        exact ⟨hk, hkeys⟩
      · show (c.nextId :: c.evictList.map (·.id)).Nodup
        rw [List.nodup_cons]
        refine ⟨?_, hids⟩
        intro hmem
        rcases List.mem_map.mp hmem with ⟨x, hx, hxid⟩
        have := hnext x hx
        omega
      · show (mapSet c.items k c.nextId).Perm (graphOf (⟨c.nextId, k, v⟩ :: c.evictList))
        rw [graphOf_cons, mapSet, mapDel_of_not_mem (mapGet_eq_none_iff.mp h)]
        exact List.Perm.cons _ hperm
      · intro x hx
        show x.id < c.nextId + 1
        rcases List.mem_cons.mp hx with hx | hx
        · subst hx
          show c.nextId < c.nextId + 1
          omega
        · have := hnext x hx
          omega
      · show ((⟨c.nextId, k, v⟩ :: c.evictList : List (Elem K V)).length : Int) ≤ c.size
        simp only [List.length_cons]
        push_cast
        omega

/-! ### `Get` -/

/-- The stored value of the singled-out node, read off the snapshot
projection, when no earlier node carries its key. -/
theorem kvFind_middle {s t : List (Elem K V)} {e : Elem K V}
    (hs : ∀ x ∈ s, x.key ≠ e.key) :
    ((s ++ e :: t).map (fun x => (x.key, x.value))).find?
      (fun p => p.1 = e.key) = some (e.key, e.value) := by
  induction s with
  | nil => simp
  | cons x rest ih =>
    have hx : x.key ≠ e.key := hs x (by simp)
    rw [List.cons_append, List.map_cons, List.find?_cons_of_neg _ (by simpa using hx)]
    exact ih fun y hy => hs y (List.mem_cons_of_mem _ hy)

theorem get_miss {c : LRUCache K V} {k : K} (hwf : WF c) (hk : k ∉ c.Keys) :
    c.Get k = (c, none, false) := by
  have h : mapGet c.items k = none := (wf_lookup_none hwf).mpr hk
  simp [LRUCache.Get, h]

theorem get_hit_props {c : LRUCache K V} {k : K} (hwf : WF c) (hk : k ∈ c.Keys) :
    (c.Get k).2.2 = true ∧
    (c.Get k).2.1 = c.valueOf k ∧
    (c.Get k).1.Keys = k :: c.Keys.erase k ∧
    (c.Get k).1.Length = c.Length ∧
    (c.Get k).1.size = c.size ∧
    WF (c.Get k).1 := by
  rcases wf_mem_keys hwf hk with ⟨i, h⟩
  rcases wf_lookup_some hwf h with ⟨s, e, t, hst, hek, hei⟩
  have hwf' := hwf
  obtain ⟨hkeys, hids, hperm, hnext, hlen, hsz⟩ := hwf'
  have hkeysl : ((s ++ e :: t).map (·.key)).Nodup := by rw [← hst]; exact hkeys
  have hidsl : ((s ++ e :: t).map (·.id)).Nodup := by rw [← hst]; exact hids
  have hfind : findById c.evictList i = some e := by
    rw [hst, ← hei]
    exact findById_append_cons (ids_split hidsl).1
  have hmove : moveToFront c.evictList i = e :: (s ++ t) := by
    rw [hst, ← hei]
    exact moveToFront_middle hidsl
  have hval : c.valueOf k = some e.value := by
    rw [LRUCache.valueOf, LRUCache.kvList, hst, ← hek]
    rw [kvFind_middle (keys_split hkeysl).1]
    rfl
  have hkeq : c.Keys.erase k = (s ++ t).map (·.key) := by
    rw [LRUCache.Keys, hst, ← hek]
    exact erase_key_middle hkeysl
  simp only [LRUCache.Get, h, hfind, hmove]
  refine ⟨trivial, by rw [hval], ?_, ?_, trivial, ?_⟩
  · rw [LRUCache.Keys]
    show (e :: (s ++ t)).map (·.key) = k :: c.Keys.erase k
    rw [List.map_cons, hkeq, hek]
  · show (e :: (s ++ t)).length = c.Length
    rw [LRUCache.Length, hst]
    simp
    omega
  · refine ⟨?_, ?_, ?_, ?_, ?_, hsz⟩
    · show ((e :: (s ++ t)).map (·.key)).Nodup
      rw [List.map_cons, hkeq.symm, hek]
      exact (List.perm_cons_erase hk).nodup_iff.mp hkeys
    · show ((e :: (s ++ t)).map (·.id)).Nodup
      have hpm : (c.evictList.map (·.id)).Perm ((e :: (s ++ t)).map (·.id)) := by
        rw [hst]
        simp only [List.map_append, List.map_cons]
        exact List.perm_middle
      exact hpm.nodup_iff.mp hids
    · show c.items.Perm (graphOf (e :: (s ++ t)))
      rw [graphOf_cons]
      refine hperm.trans ?_
      rw [hst]
      exact (perm_graph_middle (s := s) (t := t) (e := e)).symm
    · intro x hx
      rcases List.mem_cons.mp hx with hx | hx
      · subst hx
        exact hnext x (by rw [hst]; exact List.mem_append_right _ (List.mem_cons_self _ _))
      · refine hnext x ?_
        rw [hst]
        rcases List.mem_append.mp hx with hx | hx
        · exact List.mem_append_left _ hx
        · exact List.mem_append_right _ (List.mem_cons_of_mem _ hx)
    · show ((e :: (s ++ t) : List (Elem K V)).length : Int) ≤ c.size
      have : (e :: (s ++ t) : List (Elem K V)).length = c.evictList.length := by
        rw [hst]
        simp
        omega
      rw [this]
      exact hlen

/-! ### `Remove` and `Purge` preserve the representation invariant -/

theorem wf_remove {c : LRUCache K V} {k : K} (hwf : WF c) : WF (c.Remove k).1 := by
  cases h : mapGet c.items k with
  | none => simpa [LRUCache.Remove, h] using hwf
  | some i =>
    rcases wf_lookup_some hwf h with ⟨s, e, t, hst, hek, hei⟩
    obtain ⟨hkeys, hids, hperm, hnext, hlen, hsz⟩ := hwf
    have hkeysl : ((s ++ e :: t).map (·.key)).Nodup := by rw [← hst]; exact hkeys
    have hidsl : ((s ++ e :: t).map (·.id)).Nodup := by rw [← hst]; exact hids
    have hrem : removeById c.evictList i = s ++ t := by
      rw [hst, ← hei]
      exact removeById_append_cons (ids_split hidsl).1
    simp only [LRUCache.Remove, h, hrem]
    refine ⟨?_, ?_, ?_, ?_, ?_, hsz⟩
    · show ((s ++ t).map (·.key)).Nodup
      rw [List.map_append]
      rw [List.map_append, List.map_cons, List.nodup_middle, List.nodup_cons] at hkeysl
      rw [← List.map_append]
      rw [← List.map_append] at hkeysl
      exact hkeysl.2
    · show ((s ++ t).map (·.id)).Nodup
      rw [List.map_append]
      rw [List.map_append, List.map_cons, List.nodup_middle, List.nodup_cons] at hidsl
      rw [← List.map_append]
      rw [← List.map_append] at hidsl
      exact hidsl.2
    · show (mapDel c.items k).Perm (graphOf (s ++ t))
      refine (mapDel_perm hperm).trans ?_
      rw [hst, ← hek]
      rw [mapDel_graph_middle hkeysl]
    · intro x hx
      refine hnext x ?_
      rw [hst]
      rcases List.mem_append.mp hx with hx | hx
      · exact List.mem_append_left _ hx
      · exact List.mem_append_right _ (List.mem_cons_of_mem _ hx)
    · show (((s ++ t) : List (Elem K V)).length : Int) ≤ c.size
      have h1 : ((s ++ t) : List (Elem K V)).length ≤ c.evictList.length := by
        rw [hst]
        simp
        try omega
      have h2 : (((s ++ t) : List (Elem K V)).length : Int) ≤ (c.evictList.length : Int) := by
        exact_mod_cast h1
      exact h2.trans hlen

theorem wf_purge {c : LRUCache K V} (hwf : WF c) : WF c.Purge := by
  obtain ⟨-, -, -, -, -, hsz⟩ := hwf
  refine ⟨List.nodup_nil, List.nodup_nil, List.Perm.refl _, ?_, ?_, hsz⟩
  · intro x hx
    simp [LRUCache.Purge] at hx
  · show ((0 : Nat) : Int) ≤ c.Purge.size
    show ((0 : Nat) : Int) ≤ c.size
    omega

theorem wf_add {c : LRUCache K V} {k : K} {v : V} (hwf : WF c) :
    WF (c.Add k v).1 := by
  by_cases hk : k ∈ c.Keys
  · exact (add_mem_props (v := v) hwf hk).2.2.2.2.2
  · exact (add_new_props (v := v) hwf hk).2.2.2.2.2

theorem wf_get {c : LRUCache K V} {k : K} (hwf : WF c) : WF (c.Get k).1 := by
  by_cases hk : k ∈ c.Keys
  · exact (get_hit_props hwf hk).2.2.2.2.2
  · rw [get_miss hwf hk]
    exact hwf

/-- The full representation invariant implies the spec's stated one. -/
theorem wf_invariant {c : LRUCache K V} (hwf : WF c) : Invariant c := by
  obtain ⟨-, -, hperm, -, hlen, -⟩ := hwf
  refine ⟨?_, hlen, ?_⟩
  · have := hperm.length_eq
    rw [graphOf, List.length_map] at this
    omega
  · intro p hp
    rcases List.mem_map.mp (hperm.mem_iff.mp hp) with ⟨e, he, hep⟩
    exact ⟨e, he, by rw [← hep], by rw [← hep]⟩

/-! ### The rebuild loop of `Import` -/

theorem withIds_map_kv {n : Nat} {ps : List (K × V)} :
    (LRUCache.withIds n ps).map (fun e => (e.key, e.value)) = ps := by
  induction ps generalizing n with
  | nil => rfl
  | cons p rest ih => simp [LRUCache.withIds, ih]

theorem withIds_map_key {n : Nat} {ps : List (K × V)} :
    (LRUCache.withIds n ps).map (·.key) = ps.map (·.1) := by
  induction ps generalizing n with
  | nil => rfl
  | cons p rest ih => simp [LRUCache.withIds, ih]

theorem withIds_length {n : Nat} {ps : List (K × V)} :
    (LRUCache.withIds n ps).length = ps.length := by
  induction ps generalizing n with
  | nil => rfl
  | cons p rest ih => simp [LRUCache.withIds, ih]

theorem withIds_id_bounds {n : Nat} {ps : List (K × V)} {e : Elem K V}
    (he : e ∈ LRUCache.withIds n ps) : n ≤ e.id ∧ e.id < n + ps.length := by
  induction ps generalizing n with
  | nil => simp [LRUCache.withIds] at he
  | cons p rest ih =>
    rw [LRUCache.withIds] at he
    rcases List.mem_cons.mp he with he | he
    · subst he
      refine ⟨le_refl n, ?_⟩
      show n < n + (p :: rest).length
      simp only [List.length_cons]
      omega
    · have h2 := ih he
      refine ⟨by omega, ?_⟩
      show e.id < n + (p :: rest).length
      simp only [List.length_cons]
      omega

theorem withIds_ids_nodup {n : Nat} {ps : List (K × V)} :
    ((LRUCache.withIds n ps).map (·.id)).Nodup := by
  induction ps generalizing n with
  | nil => exact List.nodup_nil
  | cons p rest ih =>
    rw [LRUCache.withIds, List.map_cons, List.nodup_cons]
    refine ⟨?_, ih⟩
    intro hmem
    rcases List.mem_map.mp hmem with ⟨x, hx, hxid⟩
    have hb := withIds_id_bounds hx
    have hxid2 : x.id = n := hxid
    omega

theorem foldl_mapSet_perm {es : List (Elem K V)} :
    ∀ {m : List (K × Nat)},
      (es.map (·.key)).Nodup →
      (∀ e ∈ es, ∀ p ∈ m, p.1 ≠ e.key) →
      (es.foldl (fun m e => mapSet m e.key e.id) m).Perm (graphOf es ++ m) := by
  induction es with
  | nil =>
    intro m _ _
    exact List.Perm.refl _
  | cons e rest ih =>
    intro m hkeys hfresh
    rw [List.foldl_cons]
    have hstep : mapSet m e.key e.id = (e.key, e.id) :: m := by
      rw [mapSet, mapDel_of_not_mem fun p hp => hfresh e (by simp) p hp]
    rw [hstep]
    rw [List.map_cons, List.nodup_cons] at hkeys
    have hfresh' : ∀ x ∈ rest, ∀ p ∈ (e.key, e.id) :: m, p.1 ≠ x.key := by
      intro x hx p hp
      rcases List.mem_cons.mp hp with hp | hp
      · subst hp
        intro hcon
        refine hkeys.1 ?_
        have hcon2 : e.key = x.key := hcon
        rw [hcon2]
        exact List.mem_map_of_mem _ hx
      · exact hfresh x (List.mem_cons_of_mem _ hx) p hp
    refine (ih hkeys.2 hfresh').trans ?_
    rw [graphOf_cons]
    exact List.perm_middle

theorem rebuildItems_perm {es : List (Elem K V)}
    (hkeys : (es.map (·.key)).Nodup) :
    (LRUCache.rebuildItems es).Perm (graphOf es) := by
  have := foldl_mapSet_perm (m := []) hkeys (by intro e he p hp; simp at hp)
  rw [List.append_nil] at this
  exact this

/-! ### The truncation loop -/

theorem shrinkAux_fields {n : Nat} {c : LRUCache K V}
    (hn : c.evictList.length ≤ n) (hsz : 0 ≤ c.size)
    (hids : (c.evictList.map (·.id)).Nodup) :
    (LRUCache.shrinkAux n c).evictList = c.evictList.take c.size.toNat ∧
    (LRUCache.shrinkAux n c).size = c.size ∧
    (LRUCache.shrinkAux n c).nextId = c.nextId := by
  induction n generalizing c with
  | zero =>
    have h0 : c.evictList = [] := List.length_eq_zero.mp (Nat.le_zero.mp hn)
    rw [LRUCache.shrinkAux, h0]
    exact ⟨by simp, rfl, rfl⟩
  | succ n ih =>
    rw [LRUCache.shrinkAux]
    by_cases hgt : (c.evictList.length : Int) > c.size
    · rw [if_pos hgt]
      have hne : c.evictList ≠ [] := by
        intro hemp
        rw [hemp] at hgt
        simp at hgt
        omega
      set b := c.evictList.getLast hne with hb
      have hdec : c.evictList = c.evictList.dropLast ++ b :: [] :=
        (List.dropLast_append_getLast hne).symm
      have hglast : c.evictList.getLast? = some b := by
        rw [List.getLast?_eq_getLast _ hne]
      have hids2 : ((c.evictList.dropLast ++ b :: []).map (·.id)).Nodup := by
        rw [← hdec]; exact hids
      have hrem : removeById c.evictList b.id = c.evictList.dropLast := by
        have h2 := removeById_append_cons (s := c.evictList.dropLast) (t := [])
          (e := b) (ids_split hids2).1
        rw [← hdec, List.append_nil] at h2
        exact h2
      have hRO : c.removeOldest =
          { c with evictList := c.evictList.dropLast, items := mapDel c.items b.key } := by
        simp only [LRUCache.removeOldest, hglast, hrem]
      rw [hRO]
      have hlenDL : c.evictList.dropLast.length + 1 = c.evictList.length := by
        conv =>
          rhs
          rw [hdec]
        simp
      have hidsDL : (c.evictList.dropLast.map (·.id)).Nodup := by
        rw [List.map_append] at hids2
        exact (List.nodup_append.mp hids2).1
      have := ih (c := { c with evictList := c.evictList.dropLast,
                                items := mapDel c.items b.key })
        (by show c.evictList.dropLast.length ≤ n; omega)
        hsz hidsDL
      refine ⟨?_, this.2.1, this.2.2⟩
      rw [this.1]
      show c.evictList.dropLast.take c.size.toNat = c.evictList.take c.size.toNat
      rw [List.dropLast_eq_take, List.take_take]
      congr 1
      omega
    · rw [if_neg hgt]
      refine ⟨?_, rfl, rfl⟩
      rw [List.take_of_length_le]
      omega

/-- Tracking the `items` map through the truncation loop. -/
theorem shrinkAux_items {n : Nat} {c : LRUCache K V}
    (hn : c.evictList.length ≤ n) (hsz : 0 ≤ c.size)
    (hids : (c.evictList.map (·.id)).Nodup)
    (hkeys : (c.evictList.map (·.key)).Nodup)
    (hperm : c.items.Perm (graphOf c.evictList)) :
    (LRUCache.shrinkAux n c).items.Perm (graphOf (LRUCache.shrinkAux n c).evictList) := by
  induction n generalizing c with
  | zero =>
    have h0 : c.evictList = [] := List.length_eq_zero.mp (Nat.le_zero.mp hn)
    rw [LRUCache.shrinkAux]
    exact hperm
  | succ n ih =>
    rw [LRUCache.shrinkAux]
    by_cases hgt : (c.evictList.length : Int) > c.size
    · rw [if_pos hgt]
      have hne : c.evictList ≠ [] := by
        intro hemp
        rw [hemp] at hgt
        simp at hgt
        omega
      set b := c.evictList.getLast hne with hb
      have hdec : c.evictList = c.evictList.dropLast ++ b :: [] :=
        (List.dropLast_append_getLast hne).symm
      have hglast : c.evictList.getLast? = some b := by
        rw [List.getLast?_eq_getLast _ hne]
      have hids2 : ((c.evictList.dropLast ++ b :: []).map (·.id)).Nodup := by
        rw [← hdec]; exact hids
      have hkeys2 : ((c.evictList.dropLast ++ b :: []).map (·.key)).Nodup := by
        rw [← hdec]; exact hkeys
      have hrem : removeById c.evictList b.id = c.evictList.dropLast := by
        have h2 := removeById_append_cons (s := c.evictList.dropLast) (t := [])
          (e := b) (ids_split hids2).1
        rw [← hdec, List.append_nil] at h2
        exact h2
      have hRO : c.removeOldest =
          { c with evictList := c.evictList.dropLast, items := mapDel c.items b.key } := by
        simp only [LRUCache.removeOldest, hglast, hrem]
      rw [hRO]
      have hlenDL : c.evictList.dropLast.length + 1 = c.evictList.length := by
        conv =>
          rhs
          rw [hdec]
        simp
      have hidsDL : (c.evictList.dropLast.map (·.id)).Nodup := by
        rw [List.map_append] at hids2
        exact (List.nodup_append.mp hids2).1
      have hkeysDL : (c.evictList.dropLast.map (·.key)).Nodup := by
        rw [List.map_append] at hkeys2
        exact (List.nodup_append.mp hkeys2).1
      have hpermDL : (mapDel c.items b.key).Perm (graphOf c.evictList.dropLast) := by
        refine (mapDel_perm hperm).trans ?_
        have h3 := mapDel_graph_middle (s := c.evictList.dropLast) (t := [])
          (e := b) hkeys2
        rw [← hdec] at h3
        rw [h3]
        simp [graphOf]
      exact ih (c := { c with evictList := c.evictList.dropLast,
                              items := mapDel c.items b.key })
        (by show c.evictList.dropLast.length ≤ n; omega)
        hsz hidsDL hkeysDL hpermDL
    · rw [if_neg hgt]
      exact hperm

/-! ### `Import` -/

theorem import_decode_failed {c : LRUCache K V} :
    c.Import none = (c, some ImportError.decodeFailed) := rfl

theorem import_invalid_size {c : LRUCache K V} {d : onDisk K V}
    (h : d.Size ≤ 1) :
    c.Import (some d) = (c, some ImportError.invalidSize) := by
  simp [LRUCache.Import, h]

theorem import_ok_size {c : LRUCache K V} {d : onDisk K V}
    (h : (c.Import (some d)).2 = none) : 1 < d.Size := by
  by_cases hsz : d.Size ≤ 1
  · rw [import_invalid_size hsz] at h
    simp at h
  · omega

theorem import_ok_fields {c : LRUCache K V} {d : onDisk K V}
    (hsz : 1 < d.Size) :
    (c.Import (some d)).2 = none ∧
    (c.Import (some d)).1.evictList =
      (LRUCache.withIds c.nextId d.Entries).take d.Size.toNat ∧
    (c.Import (some d)).1.size = d.Size ∧
    (c.Import (some d)).1.nextId = c.nextId + d.Entries.length := by
  have hns : ¬ d.Size ≤ 1 := by omega
  simp only [LRUCache.Import, if_neg hns]
  have hfields := shrinkAux_fields
    (c := { size := d.Size,
            evictList := LRUCache.withIds c.nextId d.Entries,
            items := LRUCache.rebuildItems (LRUCache.withIds c.nextId d.Entries),
            nextId := c.nextId + d.Entries.length })
    (n := (LRUCache.withIds c.nextId d.Entries).length)
    (le_refl _) (by show (0 : Int) ≤ d.Size; omega) withIds_ids_nodup
  rw [LRUCache.shrink]
  refine ⟨trivial, hfields.1, hfields.2.1, ?_⟩
  rw [hfields.2.2]

theorem import_keys {c : LRUCache K V} {d : onDisk K V}
    (hsz : 1 < d.Size) :
    (c.Import (some d)).1.Keys = (d.Entries.map Prod.fst).take d.Size.toNat ∧
    (c.Import (some d)).1.Length = min d.Size.toNat d.Entries.length := by
  have hf := import_ok_fields (c := c) hsz
  constructor
  · rw [LRUCache.Keys, hf.2.1, List.map_take, withIds_map_key]
  · rw [LRUCache.Length, hf.2.1, List.length_take, withIds_length]

theorem import_wf {c : LRUCache K V} {d : onDisk K V}
    (hsz : 1 < d.Size) (hnd : (d.Entries.map Prod.fst).Nodup) :
    WF (c.Import (some d)).1 := by
  have hns : ¬ d.Size ≤ 1 := by omega
  have hkeysW : ((LRUCache.withIds c.nextId d.Entries).map (·.key)).Nodup := by
    rw [withIds_map_key]
    exact hnd
  have hf := import_ok_fields (c := c) (d := d) hsz
  have hitems : (c.Import (some d)).1.items.Perm
      (graphOf (c.Import (some d)).1.evictList) := by
    simp only [LRUCache.Import, if_neg hns, LRUCache.shrink]
    exact shrinkAux_items (le_refl _) (by show (0 : Int) ≤ d.Size; omega)
      withIds_ids_nodup hkeysW (rebuildItems_perm hkeysW)
  refine ⟨?_, ?_, hitems, ?_, ?_, ?_⟩
  · rw [hf.2.1, List.map_take]
    exact List.Nodup.sublist (List.take_sublist _ _) hkeysW
  · rw [hf.2.1, List.map_take]
    exact List.Nodup.sublist (List.take_sublist _ _) withIds_ids_nodup
  · intro x hx
    rw [hf.2.1] at hx
    have hxm : x ∈ LRUCache.withIds c.nextId d.Entries := List.take_subset _ _ hx
    have hb := withIds_id_bounds hxm
    rw [hf.2.2.2]
    omega
  · rw [hf.2.1, hf.2.2.1, List.length_take]
    have h1 : min d.Size.toNat (LRUCache.withIds c.nextId d.Entries).length ≤
        d.Size.toNat := Nat.min_le_left _ _
    have h2 : ((d.Size.toNat : Nat) : Int) = d.Size := Int.toNat_of_nonneg (by omega)
    omega
  · rw [hf.2.2.1]
    exact hsz

/-- Keys of the snapshot projection are the cache's keys. -/
theorem kvList_map_fst {c : LRUCache K V} : c.kvList.map Prod.fst = c.Keys := by
  rw [LRUCache.kvList, LRUCache.Keys, List.map_map]
  rfl

theorem valueOf_congr {c c' : LRUCache K V} (h : c.kvList = c'.kvList) (k : K) :
    c.valueOf k = c'.valueOf k := by
  rw [LRUCache.valueOf, LRUCache.valueOf, h]

/-- The full round trip `Export`, `Purge`, `Import` on a cache satisfying
the representation invariant: the rebuilt eviction list carries the
original keys and values in the original order. -/
theorem roundtrip_state {c : LRUCache K V} (hwf : WF c) :
    ((c.Purge.Import (some c.Export)).2 = none) ∧
    (c.Purge.Import (some c.Export)).1.kvList = c.kvList := by
  obtain ⟨-, -, -, -, hlen, hsz⟩ := hwf
  have hSize : (c.Export).Size = c.size := rfl
  have hEnt : (c.Export).Entries = c.kvList := rfl
  have hszE : 1 < (c.Export).Size := by rw [hSize]; exact hsz
  have hf := import_ok_fields (c := c.Purge) (d := c.Export) hszE
  refine ⟨hf.1, ?_⟩
  have hkvlen : c.kvList.length = c.evictList.length := by
    rw [LRUCache.kvList, List.length_map]
  have htake : (LRUCache.withIds c.Purge.nextId (c.Export).Entries).take
      (c.Export).Size.toNat = LRUCache.withIds c.Purge.nextId (c.Export).Entries := by
    refine List.take_of_length_le ?_
    rw [withIds_length, hEnt, hSize, hkvlen]
    have h2 : ((c.size.toNat : Nat) : Int) = c.size := Int.toNat_of_nonneg (by omega)
    omega
  rw [LRUCache.kvList, hf.2.1, htake]
  show (LRUCache.withIds c.Purge.nextId (c.Export).Entries).map
    (fun e => (e.key, e.value)) = _
  rw [withIds_map_kv, hEnt]

/-! ### Persistence-controller lemmas -/

/-- Whatever the channel held, `MarkDirty` leaves the dirty flag at 1 and
exactly one signal pending. -/
theorem markDirty_some (p : CachePersist) :
    MarkDirty (some p) = some { p with ipDirty := 1, ch := true } := by
  obtain ⟨d, chv, q, lf, mi, ma⟩ := p
  cases chv <;> simp [MarkDirty]

theorem markDirtyN_ge_one (n : Nat) (p : CachePersist) :
    markDirtyN (n + 1) (some p) = some { p with ipDirty := 1, ch := true } := by
  induction n generalizing p with
  | zero =>
    show MarkDirty (some p) = _
    exact markDirty_some p
  | succ n ih =>
    show markDirtyN (n + 1) (MarkDirty (some p)) = _
    rw [markDirty_some, ih]

/-- A fully successful flush on a dirty controller: one write completes,
the dirty flag clears, the flush time is recorded, no temp file remains. -/
theorem flush_success (env : FlushEnv) (p : CachePersist) (w : World) (now : Int)
    (hd : p.ipDirty = 1)
    (he : env.exportOk = true) (hc : env.createOk = true)
    (hw : env.writeOk = true) (hs : env.syncOk = true)
    (hcl : env.closeOk = true) (hr : env.renameOk = true) :
    flushIfDirty env now (some p) w =
      (some { p with ipDirty := 0, lastFlush := now },
       { tempExists := false, flushCount := w.flushCount + 1 }) := by
  simp [flushIfDirty, hd, he, hc, hw, hs, hcl, hr]

/-- A flush in which some step fails: the controller state is untouched
(in particular the dirty flag stays set), no write completes, and no temp
file remains. -/
theorem flush_failure (env : FlushEnv) (p : CachePersist) (w : World) (now : Int)
    (hd : p.ipDirty = 1) (hw : w.tempExists = false)
    (hfail : env.exportOk = false ∨ env.createOk = false ∨ env.writeOk = false ∨
      env.syncOk = false ∨ env.closeOk = false ∨ env.renameOk = false) :
    flushIfDirty env now (some p) w = (some p, w) := by
  obtain ⟨eo, co, wo, so, clo, ro⟩ := env
  obtain ⟨te, fc⟩ := w
  simp only at hfail
  subst hw
  cases eo <;> cases co <;> cases wo <;> cases so <;> cases clo <;> cases ro <;>
    simp_all [flushIfDirty, hd]

/-- The dirty flag is cleared by `flushIfDirty` only when it was already
clear or every step through the rename succeeded. -/
theorem flush_clear_needs_success (env : FlushEnv) (p p' : CachePersist) (w : World) (now : Int)
    (h : (flushIfDirty env now (some p) w).1 = some p')
    (hclear : p'.ipDirty = 0) :
    p.ipDirty = 0 ∨
    (env.exportOk = true ∧ env.createOk = true ∧ env.writeOk = true ∧
     env.syncOk = true ∧ env.closeOk = true ∧ env.renameOk = true) := by
  by_cases hd : p.ipDirty = 0
  · exact Or.inl hd
  · right
    obtain ⟨eo, co, wo, so, clo, ro⟩ := env
    cases eo <;> cases co <;> cases wo <;> cases so <;> cases clo <;> cases ro <;>
      simp_all [flushIfDirty, hd]

/-- One wake-up of the background loop in the debounce window (the time
since the last flush is below the minimum interval, which is positive and
below the maximum), with a successful write environment: the single
pending signal is consumed, exactly one write happens, and nothing is
left pending. -/
theorem run_nudge_debounce (env : FlushEnv) (p : CachePersist) (w : World)
    (wakeNow flushNow : Int)
    (hch : p.ch = true) (hd : p.ipDirty = 1)
    (hsince : wakeNow - p.lastFlush < p.maxInterval)
    (he : env.exportOk = true) (hc : env.createOk = true)
    (hw : env.writeOk = true) (hs : env.syncOk = true)
    (hcl : env.closeOk = true) (hr : env.renameOk = true) :
    runOnNudge env wakeNow flushNow false (some p) w =
      (some { p with ch := false, ipDirty := 0, lastFlush := flushNow },
       { tempExists := false, flushCount := w.flushCount + 1 },
       false) := by
  have hmax : ¬ (p.maxInterval - (wakeNow - p.lastFlush) ≤ 0) := by omega
  have hflush := flush_success env
    { p with ch := false } w flushNow hd he hc hw hs hcl hr
  simp only [runOnNudge, hch]
  rw [if_neg (by simp)]
  simp only [if_neg hmax, Bool.false_eq_true, if_neg (by simp : ¬ False)]
  rw [hflush]

/-- A cache returned by `NewLRUCache` is well formed and empty. -/
theorem wf_new {sz : Int} {c0 : LRUCache K V}
    (h : NewLRUCache (K := K) (V := V) sz = some c0) :
    WF c0 ∧ c0.size = sz ∧ c0.Keys = [] := by
  rw [NewLRUCache] at h
  by_cases hs : sz ≤ 1
  · rw [if_pos hs] at h
    cases h
  · rw [if_neg hs] at h
    have h2 : c0 = { size := sz, evictList := [], items := [], nextId := 0 } :=
      (Option.some.inj h).symm
    subst h2
    refine ⟨⟨List.nodup_nil, List.nodup_nil, List.Perm.refl _, ?_, ?_,
      by show (1 : Int) < sz; omega⟩, rfl, rfl⟩
    · intro x hx
      simp at hx
    · show ((([] : List (Elem K V)).length : Nat) : Int) ≤ sz
      have h3 : (([] : List (Elem K V)).length : Int) = 0 := rfl
      omega

/-! ### The claims -/

/-- C1: on a well-formed cache, `Add(key, value)` on a present key
overwrites the stored value, moves the entry to the most-recently-used
position and returns `false` without evicting; on a new key it inserts at
the most-recently-used position, evicting the single least-recently-used
entry and returning `true` exactly when the entry count would exceed the
capacity, and returning `false` otherwise. -/
theorem add_contract (c : LRUCache K V) (k : K) (v : V) (hwf : WF c) :
    (k ∈ c.Keys →
      (c.Add k v).2 = false ∧
      (c.Add k v).1.Keys = k :: c.Keys.erase k ∧
      (c.Add k v).1.Length = c.Length ∧
      (c.Add k v).1.valueOf k = some v) ∧
    (k ∉ c.Keys →
      ((c.Add k v).2 = true ↔ (c.Length + 1 : Int) > c.size) ∧
      (c.Add k v).1.Keys =
        k :: (if (c.Length + 1 : Int) > c.size then c.Keys.dropLast else c.Keys) ∧
      (c.Add k v).1.valueOf k = some v) := by
  constructor
  · intro hk
    have h := add_mem_props (v := v) hwf hk
    exact ⟨h.1, h.2.1, h.2.2.1, h.2.2.2.1⟩
  · intro hk
    have h := add_new_props (v := v) hwf hk
    exact ⟨h.1, h.2.1, h.2.2.2.1⟩

theorem add_contract_witness :
    WF lruW ∧
    ((1 ∈ lruW.Keys →
      (lruW.Add 1 99).2 = false ∧
      (lruW.Add 1 99).1.Keys = 1 :: lruW.Keys.erase 1 ∧
      (lruW.Add 1 99).1.Length = lruW.Length ∧
      (lruW.Add 1 99).1.valueOf 1 = some 99) ∧
    (1 ∉ lruW.Keys →
      ((lruW.Add 1 99).2 = true ↔ (lruW.Length + 1 : Int) > lruW.size) ∧
      (lruW.Add 1 99).1.Keys =
        1 :: (if (lruW.Length + 1 : Int) > lruW.size
              then lruW.Keys.dropLast else lruW.Keys) ∧
      (lruW.Add 1 99).1.valueOf 1 = some 99)) :=
  ⟨by decide, add_contract lruW 1 99 (by decide)⟩

/-- C2 counterexample: importing a decodable payload whose entry sequence
repeats a key (here capacity 2 with entries `(1,10)` and `(1,20)`) into a
well-formed cache succeeds but leaves the eviction list longer than the
`items` index, so the claimed invariant fails after `Import`. -/
theorem invariant_import_duplicate_cex :
    WF lruEmpty2 ∧
    (lruEmpty2.Import (some ⟨2, [(1, 10), (1, 20)]⟩)).2 = none ∧
    ¬ Invariant (lruEmpty2.Import (some ⟨2, [(1, 10), (1, 20)]⟩)).1 := by
  decide

/-- C2 (amended): after `Add`, `Get`, `Remove` and `Purge` on a
well-formed cache the invariant (equal list and index lengths, both within
capacity, each index binding naming a live entry with that key) holds; and
it holds after a successful `Import` whose decoded entries carry pairwise
distinct keys — the duplicate-key case is excluded, as the counterexample
shows it breaks the length equality. -/
theorem invariant_after_operations (c : LRUCache K V) (k : K) (v : V)
    (d : onDisk K V) (hwf : WF c) :
    Invariant (c.Add k v).1 ∧
    Invariant (c.Get k).1 ∧
    Invariant (c.Remove k).1 ∧
    Invariant c.Purge ∧
    ((c.Import (some d)).2 = none → (d.Entries.map Prod.fst).Nodup →
      Invariant (c.Import (some d)).1) := by
  refine ⟨wf_invariant (wf_add hwf), wf_invariant (wf_get hwf),
    wf_invariant (wf_remove hwf), wf_invariant (wf_purge hwf), ?_⟩
  intro hok hnd
  exact wf_invariant (import_wf (import_ok_size hok) hnd)

theorem invariant_after_operations_witness :
    WF lruW ∧
    (Invariant (lruW.Add 1 9).1 ∧
     Invariant (lruW.Get 1).1 ∧
     Invariant (lruW.Remove 1).1 ∧
     Invariant lruW.Purge ∧
     ((lruW.Import (some ⟨2, [(7, 70), (8, 80)]⟩)).2 = none →
       (([(7, 70), (8, 80)] : List (Nat × Nat)).map Prod.fst).Nodup →
       Invariant (lruW.Import (some ⟨2, [(7, 70), (8, 80)]⟩)).1)) :=
  ⟨by decide, invariant_after_operations lruW 1 9 ⟨2, [(7, 70), (8, 80)]⟩ (by decide)⟩

/-- C3: on a well-formed cache, `Export` then `Purge` then `Import` of the
exported payload succeeds and reproduces the `Keys()` sequence and the
stored value of every key. -/
theorem export_purge_import_roundtrip (c : LRUCache K V) (k : K) (hwf : WF c) :
    (c.Purge.Import (some c.Export)).2 = none ∧
    (c.Purge.Import (some c.Export)).1.Keys = c.Keys ∧
    (c.Purge.Import (some c.Export)).1.valueOf k = c.valueOf k := by
  have h := roundtrip_state hwf
  refine ⟨h.1, ?_, valueOf_congr h.2 k⟩
  rw [← kvList_map_fst, ← kvList_map_fst, h.2]

theorem export_purge_import_roundtrip_witness :
    WF lruW ∧
    ((lruW.Purge.Import (some lruW.Export)).2 = none ∧
     (lruW.Purge.Import (some lruW.Export)).1.Keys = lruW.Keys ∧
     (lruW.Purge.Import (some lruW.Export)).1.valueOf 2 = lruW.valueOf 2) :=
  ⟨by decide, export_purge_import_roundtrip lruW 2 (by decide)⟩

/-- C4: importing a payload with capacity field 2 and three entries (keys
K1, K2, K3 most-recent-first, K3 distinct from the others) yields a cache
of length 2 whose `Keys()` is exactly `[K1, K2]`, with K3 absent; in
general a successful `Import` keeps exactly the first `Size` rebuilt
entries, truncating the excess from the least-recently-used tail. -/
theorem import_enforces_capacity (c : LRUCache K V) (d : onDisk K V)
    (k1 k2 k3 : K) (v1 v2 v3 : V)
    (h31 : k3 ≠ k1) (h32 : k3 ≠ k2) (hd : 1 < d.Size) :
    (c.Import (some ⟨2, [(k1, v1), (k2, v2), (k3, v3)]⟩)).2 = none ∧
    (c.Import (some ⟨2, [(k1, v1), (k2, v2), (k3, v3)]⟩)).1.Length = 2 ∧
    (c.Import (some ⟨2, [(k1, v1), (k2, v2), (k3, v3)]⟩)).1.Keys = [k1, k2] ∧
    k3 ∉ (c.Import (some ⟨2, [(k1, v1), (k2, v2), (k3, v3)]⟩)).1.Keys ∧
    ((c.Import (some d)).1.Keys = (d.Entries.map Prod.fst).take d.Size.toNat ∧
     (c.Import (some d)).1.Length = min d.Size.toNat d.Entries.length) := by
  have h2 : (1 : Int) < 2 := by omega
  have hf := import_ok_fields
    (c := c) (d := ⟨2, [(k1, v1), (k2, v2), (k3, v3)]⟩) h2
  have hk := import_keys
    (c := c) (d := ⟨2, [(k1, v1), (k2, v2), (k3, v3)]⟩) h2
  have hkeys : (c.Import (some ⟨2, [(k1, v1), (k2, v2), (k3, v3)]⟩)).1.Keys =
      [k1, k2] := by
    rw [hk.1]
    rfl
  refine ⟨hf.1, ?_, hkeys, ?_, (import_keys hd).1, (import_keys hd).2⟩
  · rw [hk.2]
    rfl
  · rw [hkeys]
    simp [h31, h32]

theorem import_enforces_capacity_witness :
    (3 : Nat) ≠ 1 ∧ (3 : Nat) ≠ 2 ∧ 1 < (⟨3, [(9, 90)]⟩ : onDisk Nat Nat).Size ∧
    ((lruW.Import (some ⟨2, [(1, 10), (2, 20), (3, 30)]⟩)).2 = none ∧
     (lruW.Import (some ⟨2, [(1, 10), (2, 20), (3, 30)]⟩)).1.Length = 2 ∧
     (lruW.Import (some ⟨2, [(1, 10), (2, 20), (3, 30)]⟩)).1.Keys = [1, 2] ∧
     3 ∉ (lruW.Import (some ⟨2, [(1, 10), (2, 20), (3, 30)]⟩)).1.Keys ∧
     ((lruW.Import (some ⟨3, [(9, 90)]⟩)).1.Keys =
        ((([(9, 90)] : List (Nat × Nat)).map Prod.fst).take (3 : Int).toNat) ∧
      (lruW.Import (some ⟨3, [(9, 90)]⟩)).1.Length =
        min (3 : Int).toNat ([(9, 90)] : List (Nat × Nat)).length)) :=
  ⟨by decide, by decide, by decide,
   import_enforces_capacity lruW ⟨3, [(9, 90)]⟩ 1 2 3 10 20 30
     (by decide) (by decide) (by decide)⟩

/-- C5: `Import` of undecodable input reports the decode error, and
`Import` of a payload whose capacity field is at most 1 reports the
validation error; in both cases the returned cache state is exactly the
receiver, so capacity, key set, values and `Keys()` order are unchanged. -/
theorem import_invalid_rejected (c : LRUCache K V) (d : onDisk K V)
    (hd : d.Size ≤ 1) :
    c.Import none = (c, some ImportError.decodeFailed) ∧
    c.Import (some d) = (c, some ImportError.invalidSize) :=
  ⟨import_decode_failed, import_invalid_size hd⟩

theorem import_invalid_rejected_witness :
    (⟨1, [(5, 50)]⟩ : onDisk Nat Nat).Size ≤ 1 ∧
    (lruW.Import none = (lruW, some ImportError.decodeFailed) ∧
     lruW.Import (some ⟨1, [(5, 50)]⟩) = (lruW, some ImportError.invalidSize)) :=
  ⟨by decide, import_invalid_rejected lruW ⟨1, [(5, 50)]⟩ (by decide)⟩

/-- C6 counterexample: a well-formed capacity-4 cache that already holds
key 0 also has capacity at least 3, yet `Add 1; Add 2; Add 3; Get 1`
leaves `Keys() = [1, 3, 2, 0]`, not `[1, 3, 2]` — the scenario equation
only holds from an initially empty cache (or at capacity exactly 3, where
the three inserts flush all older entries). -/
theorem promotion_scenario_cex :
    WF lruPre4 ∧ 3 ≤ lruPre4.size ∧
    ((((lruPre4.Add 1 11).1.Add 2 22).1.Add 3 33).1.Get 1).1.Keys ≠ [1, 3, 2] := by
  decide

/-- C6 (amended): starting from a freshly constructed cache of capacity at
least 3 and pairwise distinct keys, `Add A; Add B; Add C; Get A` leaves
`Keys() = [A, C, B]`; and in general, on a well-formed cache a `Get` hit
moves the accessed entry to the most-recently-used position and returns
its stored value, while a `Get` miss returns not-found and changes
nothing. -/
theorem promotion_on_read (c c0 : LRUCache K V) (sz : Int)
    (a b d k : K) (va vb vd : V)
    (hwf : WF c) (hsz : 3 ≤ sz)
    (hnew : NewLRUCache (K := K) (V := V) sz = some c0)
    (hab : a ≠ b) (had : a ≠ d) (hbd : b ≠ d) :
    ((((c0.Add a va).1.Add b vb).1.Add d vd).1.Get a).1.Keys = [a, d, b] ∧
    (k ∈ c.Keys →
      (c.Get k).2.2 = true ∧
      (c.Get k).2.1 = c.valueOf k ∧
      (c.Get k).1.Keys = k :: c.Keys.erase k) ∧
    (k ∉ c.Keys → c.Get k = (c, none, false)) := by
  refine ⟨?_, ?_, ?_⟩
  · obtain ⟨hwf0, hsz0, hkeys0⟩ := wf_new hnew
    have hL0 : c0.Length = 0 := by
      rw [LRUCache.Length]
      have h5 := congrArg List.length hkeys0
      rw [LRUCache.Keys, List.length_map] at h5
      exact h5
    have hnk1 : a ∉ c0.Keys := by rw [hkeys0]; simp
    have h1 := add_new_props (v := va) hwf0 hnk1
    have hcond1 : ¬ (c0.Length + 1 : Int) > c0.size := by
      rw [hL0, hsz0]
      push_cast
      omega
    have hwf1 := h1.2.2.2.2.2
    have hk1 : (c0.Add a va).1.Keys = [a] := by
      rw [h1.2.1, if_neg hcond1, hkeys0]
    have hsz1 : (c0.Add a va).1.size = c0.size := h1.2.2.2.2.1
    have hL1 : (c0.Add a va).1.Length = 1 := by
      rw [h1.2.2.1, if_neg hcond1, hL0]
    set c1 := (c0.Add a va).1 with hc1
    have hnk2 : b ∉ c1.Keys := by
      rw [hk1]
      simp [Ne.symm hab]
    have h2 := add_new_props (v := vb) hwf1 hnk2
    have hcond2 : ¬ (c1.Length + 1 : Int) > c1.size := by
      rw [hL1, hsz1, hsz0]
      push_cast
      omega
    have hwf2 := h2.2.2.2.2.2
    have hk2 : (c1.Add b vb).1.Keys = [b, a] := by
      rw [h2.2.1, if_neg hcond2, hk1]
    have hsz2 : (c1.Add b vb).1.size = c1.size := h2.2.2.2.2.1
    have hL2 : (c1.Add b vb).1.Length = 2 := by
      rw [h2.2.2.1, if_neg hcond2, hL1]
    set c2 := (c1.Add b vb).1 with hc2
    have hnk3 : d ∉ c2.Keys := by
      rw [hk2]
      simp [Ne.symm hbd, Ne.symm had]
    have h3 := add_new_props (v := vd) hwf2 hnk3
    have hcond3 : ¬ (c2.Length + 1 : Int) > c2.size := by
      rw [hL2, hsz2, hsz1, hsz0]
      push_cast
      omega
    have hwf3 := h3.2.2.2.2.2
    have hk3 : (c2.Add d vd).1.Keys = [d, b, a] := by
      rw [h3.2.1, if_neg hcond3, hk2]
    set c3 := (c2.Add d vd).1 with hc3
    have ha4 : a ∈ c3.Keys := by
      rw [hk3]
      simp
    have h4 := get_hit_props hwf3 ha4
    rw [h4.2.2.1, hk3]
    have herase : ([d, b, a] : List K).erase a = [d, b] := by
      simp [List.erase_cons, Ne.symm had, Ne.symm hab]
    rw [herase]
  · intro hk
    have h := get_hit_props hwf hk
    exact ⟨h.1, h.2.1, h.2.2.1⟩
  · intro hk
    exact get_miss hwf hk

theorem promotion_on_read_witness :
    WF lruW ∧ (3 : Int) ≤ 3 ∧
    NewLRUCache (K := Nat) (V := Nat) 3 = some lruEmpty3 ∧
    (7 : Nat) ≠ 8 ∧ (7 : Nat) ≠ 9 ∧ (8 : Nat) ≠ 9 ∧
    (((((lruEmpty3.Add 7 70).1.Add 8 80).1.Add 9 90).1.Get 7).1.Keys = [7, 9, 8] ∧
     (1 ∈ lruW.Keys →
       (lruW.Get 1).2.2 = true ∧
       (lruW.Get 1).2.1 = lruW.valueOf 1 ∧
       (lruW.Get 1).1.Keys = 1 :: lruW.Keys.erase 1) ∧
     (1 ∉ lruW.Keys → lruW.Get 1 = (lruW, none, false))) :=
  ⟨by decide, by decide, by decide, by decide, by decide, by decide,
   promotion_on_read lruW lruEmpty3 3 7 8 9 1 70 80 90
     (by decide) (by decide) (by decide) (by decide) (by decide) (by decide)⟩

/-- C7: `Export` reads a snapshot and never mutates the receiver: the
state-threaded export returns the cache unchanged, iterating it any number
of times leaves the cache unchanged, and `Keys()` and every stored value
observed before an `Export` equal those observed after it. -/
theorem export_readonly (c : LRUCache K V) (n : Nat) (k : K) :
    (c.ExportSt).1 = c ∧
    (fun s : LRUCache K V => (s.ExportSt).1)^[n] c = c ∧
    (c.ExportSt).1.Keys = c.Keys ∧
    (c.ExportSt).1.valueOf k = c.valueOf k := by
  refine ⟨rfl, ?_, rfl, rfl⟩
  induction n with
  | zero => rfl
  | succ n ih =>
    rw [Function.iterate_succ_apply]
    simpa [LRUCache.ExportSt] using ih

/-- C8: `MarkDirty` sets the dirty flag on every call — whatever the
controller's prior dirty flag or channel state, clean included; a flush on
a dirty controller in which some step (encode, temp creation, write, sync,
close, rename) fails leaves the controller state — dirty flag included —
and the world untouched, with no temp file and no completed write; a flush
in which every step succeeds clears the dirty flag, records the flush time
and completes exactly one write; and the dirty flag is cleared only when
every step through the rename succeeded.  `q` ranges over arbitrary
controller states for the `MarkDirty` clause; the hypotheses on `p` and
`w` scope only the flush clauses. -/
theorem flush_dirty_discipline (env : FlushEnv) (p q p' : CachePersist)
    (w : World) (now : Int)
    (hd : p.ipDirty = 1) (hw : w.tempExists = false) :
    MarkDirty (some q) = some { q with ipDirty := 1, ch := true } ∧
    ((env.exportOk = false ∨ env.createOk = false ∨ env.writeOk = false ∨
        env.syncOk = false ∨ env.closeOk = false ∨ env.renameOk = false) →
      flushIfDirty env now (some p) w = (some p, w)) ∧
    ((env.exportOk = true ∧ env.createOk = true ∧ env.writeOk = true ∧
        env.syncOk = true ∧ env.closeOk = true ∧ env.renameOk = true) →
      flushIfDirty env now (some p) w =
        (some { p with ipDirty := 0, lastFlush := now },
         { tempExists := false, flushCount := w.flushCount + 1 })) ∧
    ((flushIfDirty env now (some p) w).1 = some p' → p'.ipDirty = 0 →
      env.exportOk = true ∧ env.createOk = true ∧ env.writeOk = true ∧
      env.syncOk = true ∧ env.closeOk = true ∧ env.renameOk = true) := by
  refine ⟨markDirty_some q, ?_, ?_, ?_⟩
  · intro hfail
    exact flush_failure env p w now hd hw hfail
  · intro hok
    exact flush_success env p w now hd hok.1 hok.2.1 hok.2.2.1 hok.2.2.2.1
      hok.2.2.2.2.1 hok.2.2.2.2.2
  · intro h hclear
    rcases flush_clear_needs_success env p p' w now h hclear with h0 | hok
    · rw [hd] at h0
      cases h0
    · exact hok

theorem flush_dirty_discipline_witness :
    cpDirty.ipDirty = 1 ∧ wldW.tempExists = false ∧ cpIdle.ipDirty = 0 ∧
    (MarkDirty (some cpIdle) = some { cpIdle with ipDirty := 1, ch := true } ∧
     ((envOk.exportOk = false ∨ envOk.createOk = false ∨ envOk.writeOk = false ∨
         envOk.syncOk = false ∨ envOk.closeOk = false ∨ envOk.renameOk = false) →
       flushIfDirty envOk 5 (some cpDirty) wldW = (some cpDirty, wldW)) ∧
     ((envOk.exportOk = true ∧ envOk.createOk = true ∧ envOk.writeOk = true ∧
         envOk.syncOk = true ∧ envOk.closeOk = true ∧ envOk.renameOk = true) →
       flushIfDirty envOk 5 (some cpDirty) wldW =
         (some { cpDirty with ipDirty := 0, lastFlush := 5 },
          { tempExists := false, flushCount := wldW.flushCount + 1 })) ∧
     ((flushIfDirty envOk 5 (some cpDirty) wldW).1 = some cpDirty →
       cpDirty.ipDirty = 0 →
       envOk.exportOk = true ∧ envOk.createOk = true ∧ envOk.writeOk = true ∧
       envOk.syncOk = true ∧ envOk.closeOk = true ∧ envOk.renameOk = true)) :=
  ⟨by decide, by decide, by decide,
   flush_dirty_discipline envOk cpDirty cpIdle cpDirty wldW 5 (by decide) (by decide)⟩

/-- C9: any number `n ≥ 1` of `MarkDirty` calls landing while no signal is
pending coalesce into a single pending wake-up on the capacity-1 channel
(and set the dirty flag); when the wake-up fires within the debounce
window (time since the last flush below the positive minimum interval,
maximum interval the usual triple), the worker drains the channel, waits
out the window and performs exactly one write — the flush count rises by
exactly one, independent of `n`, and no wake-up stays pending. -/
theorem markdirty_coalescing (env : FlushEnv) (p : CachePersist) (w : World)
    (wakeNow flushNow : Int) (n : Nat)
    (hn : 1 ≤ n) (_hch : p.ch = false)
    (hmin : 0 < p.minInterval) (hmax : p.maxInterval = 3 * p.minInterval)
    (hsince : wakeNow - p.lastFlush < p.minInterval)
    (he : env.exportOk = true) (hc : env.createOk = true)
    (hwo : env.writeOk = true) (hs : env.syncOk = true)
    (hcl : env.closeOk = true) (hr : env.renameOk = true) :
    markDirtyN n (some p) = some { p with ipDirty := 1, ch := true } ∧
    runOnNudge env wakeNow flushNow false (markDirtyN n (some p)) w =
      (some { p with ipDirty := 0, ch := false, lastFlush := flushNow },
       { tempExists := false, flushCount := w.flushCount + 1 },
       false) := by
  obtain ⟨m, rfl⟩ : ∃ m, n = m + 1 := ⟨n - 1, by omega⟩
  have hmark := markDirtyN_ge_one m p
  refine ⟨hmark, ?_⟩
  rw [hmark]
  have hrun := run_nudge_debounce env { p with ipDirty := 1, ch := true } w
    wakeNow flushNow rfl rfl (by show wakeNow - p.lastFlush < p.maxInterval; omega)
    he hc hwo hs hcl hr
  rw [hrun]

theorem markdirty_coalescing_witness :
    1 ≤ 4 ∧ cpIdle.ch = false ∧ 0 < cpIdle.minInterval ∧
    cpIdle.maxInterval = 3 * cpIdle.minInterval ∧
    (5 : Int) - cpIdle.lastFlush < cpIdle.minInterval ∧
    (markDirtyN 4 (some cpIdle) = some { cpIdle with ipDirty := 1, ch := true } ∧
     runOnNudge envOk 5 12 false (markDirtyN 4 (some cpIdle)) wldW =
       (some { cpIdle with ipDirty := 0, ch := false, lastFlush := 12 },
        { tempExists := false, flushCount := wldW.flushCount + 1 },
        false)) :=
  ⟨by decide, by decide, by decide, by decide, by decide,
   markdirty_coalescing envOk cpIdle wldW 5 12 4 (by decide) (by decide)
     (by decide) (by decide) (by decide) (by decide) (by decide) (by decide)
     (by decide) (by decide) (by decide)⟩

/-- C10: calling `MarkDirty`, `Stop`, `Run` or the flush on the nil
controller pointer handed out when persistence is disabled returns
immediately (`Run` exits before entering its loop) with no effect on any
state and no panic — each is total and leaves both controller and world
exactly as they were. -/
theorem nil_receiver_noop (env : FlushEnv) (wakeNow flushNow : Int)
    (intr : Bool) (w : World) :
    MarkDirty none = none ∧
    Stop none = none ∧
    flushIfDirty env flushNow none w = (none, w) ∧
    runOnNudge env wakeNow flushNow intr none w = (none, w, true) :=
  ⟨rfl, rfl, rfl, rfl⟩

end Geoblock
